import Mathlib

/-!
Verification of the feedback-driven candidate elimination engine of the
Wordle solver (class WordleFilter in wordle.py).

The embedding models:
  * a corpus row (word, frequency) — rows of the loaded word list,
  * a feedback entry (pos, letter, status) as produced per tile,
  * WordleFilter.filter_words and WordleFilter.get_best_guess.

Words are lists of characters; frequencies are rationals (the source reads
them with float(...) and only compares them); a feedback status is a string,
exactly as in the source, where it is compared against "correct",
"present" and "absent".
-/

abbrev WORD_LENGTH : Nat := 5

structure Row where
  word : List Char
  frequency : ℚ
deriving DecidableEq, Repr

structure FeedbackEntry where
  pos : Fin WORD_LENGTH
  letter : Char
  status : String
deriving DecidableEq, Repr

/-- `row["word"].lower()` — lowercase a word, characterwise. -/
def lowerWord (w : List Char) : List Char := w.map Char.toLower

/-- The feedback entries with status `"correct"`. -/
def correctEntries (feedback : List FeedbackEntry) : List FeedbackEntry :=
  feedback.filter (fun f => f.status == "correct")

/-- The value of the Python dict
`{f["pos"]: f["letter"] for f in feedback if f["status"] == "correct"}`
at key `p`: the letter of the LAST correct entry at position `p`
(later dict assignments override earlier ones), or `none`. -/
def lastCorrectAt (feedback : List FeedbackEntry) (p : Fin WORD_LENGTH) : Option Char :=
  (((correctEntries feedback).filter (fun f => f.pos == p)).getLast?).map (fun f => f.letter)

/-- `not any(word[pos] != letter for pos, letter in correct_pos.items())`. -/
def checkCorrect (feedback : List FeedbackEntry) (word : List Char) : Bool :=
  (List.finRange WORD_LENGTH).all (fun p =>
    match lastCorrectAt feedback p with
    | none => true
    | some c => word.getD p.val 'a' == c)

/-- `[(f["pos"], f["letter"]) for f in feedback if f["status"] == "present"]`. -/
def presentPairs (feedback : List FeedbackEntry) : List (Fin WORD_LENGTH × Char) :=
  (feedback.filter (fun f => f.status == "present")).map (fun f => (f.pos, f.letter))

/-- `all(letter in word and word[pos] != letter for pos, letter in present_pairs)`. -/
def checkPresent (feedback : List FeedbackEntry) (word : List Char) : Bool :=
  (presentPairs feedback).all (fun pc =>
    word.contains pc.2 && !(word.getD pc.1.val 'a' == pc.2))

/-- `{f["letter"] for f in feedback if f["status"] in ["correct", "present"]}`
(a set in the source; only membership is ever used, so a list is faithful). -/
def knownLetters (feedback : List FeedbackEntry) : List Char :=
  (feedback.filter (fun f => f.status == "correct" || f.status == "present")).map
    (fun f => f.letter)

/-- `{f["letter"] for f in feedback if f["status"] == "absent" and f["letter"] not in known_letters}`. -/
def absentLetters (feedback : List FeedbackEntry) : List Char :=
  (feedback.filter (fun f =>
    f.status == "absent" && !(knownLetters feedback).contains f.letter)).map
    (fun f => f.letter)

/-- `not any(letter in word for letter in absent_letters)`. -/
def checkAbsent (feedback : List FeedbackEntry) (word : List Char) : Bool :=
  !(absentLetters feedback).any (fun c => word.contains c)

/-- `WordleFilter.filter_words`: with empty feedback, the lowercased word list;
otherwise the lowercased words passing all three checks, `list(set(...))`
modelled as `List.dedup` (claims about the result are stated at set level,
since the order of `list(set(...))` is unspecified). -/
def filter_words (word_list : List Row) (feedback : List FeedbackEntry) :
    List (List Char) :=
  if feedback.isEmpty then
    word_list.map (fun r => lowerWord r.word)
  else
    ((word_list.map (fun r => lowerWord r.word)).filter (fun w =>
      checkCorrect feedback w && checkPresent feedback w && checkAbsent feedback w)).dedup

/-- One assignment `d[k] = v` on a Python dict modelled as an association
list in insertion order: an existing key keeps its place and gets the new
value, a new key is appended. -/
def dictInsert (d : List (List Char × ℚ)) (k : List Char) (v : ℚ) :
    List (List Char × ℚ) :=
  if d.any (fun p => p.1 == k) then
    d.map (fun p => if p.1 == k then (k, v) else p)
  else d ++ [(k, v)]

/-- `{row["word"].lower(): float(row["frequency"]) for row in self.word_list
if row["word"].lower() in candidates}`. -/
def word_freq (word_list : List Row) (candidates : List (List Char)) :
    List (List Char × ℚ) :=
  word_list.foldl (fun d r =>
    if candidates.contains (lowerWord r.word) then
      dictInsert d (lowerWord r.word) r.frequency
    else d) []

/-- One comparison step of Python's `max(..., key=word_freq.get)`: the
current best is replaced only on a strictly larger value, so `max` returns
the first key attaining the maximum. -/
def pickMax (best q : List Char × ℚ) : List Char × ℚ :=
  if best.2 < q.2 then q else best

/-- `max(word_freq, key=word_freq.get)` as an `Option`, `none` on the empty
dict (where Python's `max` is never reached: the source guards with
`if word_freq else candidates[0]`). -/
def maxByVal : List (List Char × ℚ) → Option (List Char)
  | [] => none
  | p :: rest => some ((rest.foldl pickMax p).1)

/-- `WordleFilter.get_best_guess`; Python's `""` for an empty candidate
list is the empty word `[]`. -/
def get_best_guess (word_list : List Row) (candidates : List (List Char)) :
    List Char :=
  if candidates.isEmpty then []
  else
    match maxByVal (word_freq word_list candidates) with
    | some w => w
    | none => candidates.headD []

/-- The "corpus frequency score" of a word: the frequency of the last corpus
row whose lowercased word equals it (later rows override earlier ones in the
source's dict comprehension). -/
def corpusFreq (word_list : List Row) (w : List Char) : Option ℚ :=
  ((word_list.filter (fun r => lowerWord r.word == w)).getLast?).map
    (fun r => r.frequency)

/-! ### Concrete data from the spec's scenarios -/

def corpus1 : List Row :=
  [⟨"apple".toList, 5⟩, ⟨"angle".toList, 8⟩, ⟨"ankle".toList, 3⟩]

def fb1 : List FeedbackEntry :=
  [⟨0, 'a', "correct"⟩, ⟨1, 'n', "absent"⟩, ⟨2, 'g', "present"⟩,
   ⟨3, 'l', "correct"⟩, ⟨4, 'e', "correct"⟩]

def corpus6 : List Row :=
  [⟨"crane".toList, 10⟩, ⟨"slate".toList, 50⟩, ⟨"adieu".toList, 5⟩]

def cands6 : List (List Char) :=
  ["crane".toList, "slate".toList, "adieu".toList]

/-! ### C1 -/

/-- C1 (counterexample): on the scenario corpus and feedback, "apple" is NOT
in the result of filter_words — the present entry (2,'g') requires a 'g'
somewhere in the word, which "apple" lacks — contradicting the claim that
the resulting candidate set is exactly the singleton containing "apple". -/
theorem c1_apple_eliminated : "apple".toList ∉ filter_words corpus1 fb1 := by
  decide

/-- C1 (amended): on the scenario corpus and feedback, filter_words
eliminates all three words — "angle" and "ankle" per the rules, and "apple"
as well, since the present entry (2,'g') requires the word to contain 'g' —
so the resulting candidate set is empty. -/
theorem c1_scenario_result_empty : filter_words corpus1 fb1 = [] := by
  decide

/-! ### Basic membership lemmas -/

/-- Empty feedback: filter_words is literally the lowercased word list. -/
theorem filter_words_nil (wl : List Row) :
    filter_words wl [] = wl.map (fun r => lowerWord r.word) := rfl

/-- Membership in filter_words for non-empty feedback: the word is a
lowercased corpus word passing all three checks. -/
theorem mem_filter_words (wl : List Row) (fb : List FeedbackEntry)
    (h : fb ≠ []) (w : List Char) :
    w ∈ filter_words wl fb ↔
      (w ∈ wl.map (fun r => lowerWord r.word) ∧
        checkCorrect fb w = true ∧ checkPresent fb w = true ∧
        checkAbsent fb w = true) := by
  unfold filter_words
  rw [if_neg (by simpa using h)]
  simp [List.mem_dedup, List.mem_filter, and_assoc]

/-! ### C8 -/

/-- C8: for every loaded corpus, filter_words applied to the empty feedback
list equals, as a set, the full corpus word list with every word
lowercased. -/
theorem c8_empty_feedback_identity (wl : List Row) (w : List Char) :
    w ∈ filter_words wl [] ↔ w ∈ wl.map (fun r => lowerWord r.word) :=
  Iff.rfl

/-! ### C9 -/

/-- C9 (counterexample): with a corpus holding the same word row twice and
the empty feedback list, filter_words returns the raw lowercased list,
which contains a duplicate — the empty-feedback branch does not collapse
duplicates. -/
theorem c9_duplicates_survive_empty_feedback :
    ¬ (filter_words [⟨"apple".toList, 5⟩, ⟨"apple".toList, 5⟩] []).Nodup := by
  decide

/-- C9 (amended): for every non-empty feedback list the result of
filter_words contains no duplicate words (the source returns
`list(set(filtered))` there); for the empty feedback list the raw
lowercased corpus list is returned as-is, so duplicate corpus rows yield
duplicates. -/
theorem c9_nodup_of_feedback_ne_nil (wl : List Row) (fb : List FeedbackEntry)
    (h : fb ≠ []) : (filter_words wl fb).Nodup := by
  unfold filter_words
  rw [if_neg (by simpa using h)]
  exact List.nodup_dedup _

/-- C9 witness: the amended theorem at the scenario corpus and feedback. -/
theorem c9_nodup_witness : (filter_words corpus1 fb1).Nodup :=
  c9_nodup_of_feedback_ne_nil corpus1 fb1 (by decide)

/-! ### C3 -/

/-- C3: a letter appearing in any correct or present entry is excluded from
the absent-letter set (so an absent entry for it never rejects a word that
contains it), and for the feedback [(0,'s',present), (3,'s',absent)] every
word survives the absent check. -/
theorem c3_repeated_letter_tiebreak :
    (∀ (fb : List FeedbackEntry) (c : Char),
        c ∈ knownLetters fb → c ∉ absentLetters fb) ∧
      (∀ w : List Char,
        checkAbsent [⟨0, 's', "present"⟩, ⟨3, 's', "absent"⟩] w = true) := by
  constructor
  · intro fb c hk habs
    simp only [absentLetters, List.mem_map, List.mem_filter] at habs
    obtain ⟨f, ⟨hfmem, hcond⟩, hletter⟩ := habs
    rw [Bool.and_eq_true] at hcond
    have hnot : f.letter ∉ knownLetters fb := by
      have := hcond.2
      simpa using this
    rw [hletter] at hnot
    exact hnot hk
  · intro w
    rfl

/-- C3 witness: 's' is a known letter of the feedback
[(0,'s',present), (3,'s',absent)] and hence not among its absent letters,
and the word "toast" survives the absent check. -/
theorem c3_witness :
    's' ∉ absentLetters [⟨0, 's', "present"⟩, ⟨3, 's', "absent"⟩] ∧
      checkAbsent [⟨0, 's', "present"⟩, ⟨3, 's', "absent"⟩] "toast".toList = true :=
  ⟨c3_repeated_letter_tiebreak.1 _ 's' (by decide),
    c3_repeated_letter_tiebreak.2 "toast".toList⟩

/-! ### C7 -/

/-- C7: on an empty candidate list, get_best_guess returns the empty word
(Python's ""), signalling "no guess available"; under the load invariant
that all corpus words have length WORD_LENGTH, this value is not a corpus
word, so in particular no word outside the candidate set is returned. -/
theorem c7_empty_candidates (wl : List Row) :
    get_best_guess wl [] = [] ∧
      ((∀ r ∈ wl, r.word.length = WORD_LENGTH) →
        get_best_guess wl [] ∉ wl.map (fun r => lowerWord r.word)) := by
  refine ⟨rfl, ?_⟩
  intro hlen hmem
  simp only [List.mem_map] at hmem
  obtain ⟨r, hr, hw⟩ := hmem
  have : r.word.length = 0 := by
    have := congrArg List.length hw
    simpa [lowerWord, get_best_guess] using this
  have h5 : r.word.length = 5 := hlen r hr
  omega

/-- C7 witness: the theorem at the scenario corpus. -/
theorem c7_witness :
    get_best_guess corpus1 [] = [] ∧
      get_best_guess corpus1 [] ∉ corpus1.map (fun r => lowerWord r.word) :=
  ⟨(c7_empty_candidates corpus1).1,
    (c7_empty_candidates corpus1).2 (by decide)⟩

/-! ### C5 -/

/-- C5: a word in the result of filter_words satisfies, for every feedback
entry with status present at position p with letter c, that c occurs
somewhere in the word and the word does not have c at index p. -/
theorem c5_present_semantics (wl : List Row) (fb : List FeedbackEntry)
    (w : List Char) (e : FeedbackEntry)
    (hw : w ∈ filter_words wl fb) (he : e ∈ fb) (hst : e.status = "present") :
    e.letter ∈ w ∧ w[e.pos.val]? ≠ some e.letter := by
  have hfb : fb ≠ [] := by
    intro h
    subst h
    exact absurd he (List.not_mem_nil e)
  rw [mem_filter_words wl fb hfb w] at hw
  have hcp := hw.2.2.1
  unfold checkPresent at hcp
  rw [List.all_eq_true] at hcp
  have hpair : (e.pos, e.letter) ∈ presentPairs fb := by
    unfold presentPairs
    rw [List.mem_map]
    exact ⟨e, List.mem_filter.2 ⟨he, by simp [hst]⟩, rfl⟩
  have h2 := hcp _ hpair
  rw [Bool.and_eq_true] at h2
  constructor
  · have := h2.1
    simpa using this
  · have hne : ¬ w.getD e.pos.val 'a' = e.letter := by
      have := h2.2
      simpa using this
    intro hcontra
    have : w.getD e.pos.val 'a' = e.letter := by
      rw [List.getD_eq_getElem?_getD, hcontra]
      rfl
    exact hne this

/-- C5 witness: for the corpus ["slate"] and the single present entry
(1,'e'), the surviving word "slate" contains 'e' and not at index 1. -/
theorem c5_witness :
    'e' ∈ "slate".toList ∧ "slate".toList[1]? ≠ some 'e' :=
  c5_present_semantics [⟨"slate".toList, 1⟩] [⟨1, 'e', "present"⟩]
    "slate".toList ⟨1, 'e', "present"⟩ (by decide) (by decide) rfl

/-! ### C4 -/

def fb4 : List FeedbackEntry := [⟨0, 'a', "correct"⟩, ⟨0, 'b', "correct"⟩]

/-- C4 (counterexample): with two conflicting correct entries at position 0,
the dict comprehension keeps only the later one, so "bcdef" is in the
result although it violates the earlier correct entry (0,'a') — the claim
that any word violating SOME correct entry is excluded fails. -/
theorem c4_conflicting_correct_entries :
    "bcdef".toList ∈ filter_words [⟨"bcdef".toList, 1⟩] fb4 ∧
      (⟨0, 'a', "correct"⟩ : FeedbackEntry) ∈ fb4 ∧
      "bcdef".toList[0]? ≠ some 'a' := by
  decide

/-- C4 (amended): under the load invariant that corpus words have length
WORD_LENGTH, and provided all correct entries of the feedback agree on the
letter whenever they share a position (the no-conflicting-duplicates shape
the spec assumes of feedback), a word in the result of filter_words has,
for every correct entry at position p with letter c, the letter c at
index p. -/
theorem c4_correct_position_exactness (wl : List Row) (fb : List FeedbackEntry)
    (w : List Char) (e : FeedbackEntry)
    (hlen : ∀ r ∈ wl, r.word.length = WORD_LENGTH)
    (hagree : ∀ e1 ∈ fb, ∀ e2 ∈ fb, e1.status = "correct" →
      e2.status = "correct" → e1.pos = e2.pos → e1.letter = e2.letter)
    (hw : w ∈ filter_words wl fb) (he : e ∈ fb) (hst : e.status = "correct") :
    w[e.pos.val]? = some e.letter := by
  have hfb : fb ≠ [] := by
    intro h
    subst h
    exact absurd he (List.not_mem_nil e)
  rw [mem_filter_words wl fb hfb w] at hw
  obtain ⟨hwmem, hcc, -, -⟩ := hw
  -- the word has length WORD_LENGTH
  have hwlen : w.length = WORD_LENGTH := by
    rw [List.mem_map] at hwmem
    obtain ⟨r, hr, hweq⟩ := hwmem
    have : (lowerWord r.word).length = r.word.length := List.length_map _ _
    rw [hweq] at this
    rw [this]
    exact hlen r hr
  -- the dict value at e.pos is e.letter
  have hlast : lastCorrectAt fb e.pos = some e.letter := by
    unfold lastCorrectAt
    set L := (correctEntries fb).filter (fun f => f.pos == e.pos) with hL
    have heL : e ∈ L := by
      rw [hL]
      refine List.mem_filter.2 ⟨?_, by simp⟩
      exact List.mem_filter.2 ⟨he, by simp [hst]⟩
    have hLne : L ≠ [] := List.ne_nil_of_mem heL
    have hg : L.getLast? = some (L.getLast hLne) := List.getLast?_eq_getLast L hLne
    have hgL : L.getLast hLne ∈ L := List.getLast_mem hLne
    have hgfb : L.getLast hLne ∈ fb := by
      have h1 := (List.mem_filter.1 hgL).1
      exact (List.mem_filter.1 h1).1
    have hgst : (L.getLast hLne).status = "correct" := by
      have h1 := (List.mem_filter.1 hgL).1
      have := (List.mem_filter.1 h1).2
      simpa using this
    have hgpos : (L.getLast hLne).pos = e.pos := by
      have := (List.mem_filter.1 hgL).2
      simpa using this
    have hglet : (L.getLast hLne).letter = e.letter :=
      hagree _ hgfb _ he hgst hst hgpos
    rw [hg]
    simp [hglet]
  -- the correct check at e.pos forces the letter
  unfold checkCorrect at hcc
  rw [List.all_eq_true] at hcc
  have hp := hcc e.pos (List.mem_finRange e.pos)
  rw [hlast] at hp
  have hgetD : w.getD e.pos.val 'a' = e.letter := by
    simpa using hp
  have hlt : e.pos.val < w.length := by
    rw [hwlen]
    exact e.pos.isLt
  rw [List.getElem?_eq_getElem hlt]
  have : w.getD e.pos.val 'a' = w[e.pos.val] := by
    rw [List.getD_eq_getElem?_getD, List.getElem?_eq_getElem hlt]
    rfl
  rw [this] at hgetD
  exact congrArg some hgetD

/-- C4 witness: for the corpus ["abcde"] and the single correct entry
(0,'a'), the surviving word "abcde" has 'a' at index 0. -/
theorem c4_witness : "abcde".toList[0]? = some 'a' :=
  c4_correct_position_exactness [⟨"abcde".toList, 1⟩] [⟨0, 'a', "correct"⟩]
    "abcde".toList ⟨0, 'a', "correct"⟩ (by decide) (by decide) (by decide)
    (by decide) rfl

/-! ### Appending feedback: how the derived facts change -/

theorem correctEntries_append (F G : List FeedbackEntry) :
    correctEntries (F ++ G) = correctEntries F ++ correctEntries G := by
  simp [correctEntries]

theorem presentPairs_append (F G : List FeedbackEntry) :
    presentPairs (F ++ G) = presentPairs F ++ presentPairs G := by
  simp [presentPairs]

theorem knownLetters_append (F G : List FeedbackEntry) :
    knownLetters (F ++ G) = knownLetters F ++ knownLetters G := by
  simp [knownLetters]

theorem lastCorrectAt_append_of_none (F G : List FeedbackEntry)
    (hG : correctEntries G = []) (p : Fin WORD_LENGTH) :
    lastCorrectAt (F ++ G) p = lastCorrectAt F p := by
  unfold lastCorrectAt
  rw [correctEntries_append, hG, List.append_nil]

theorem checkCorrect_append_unrec (F : List FeedbackEntry) (e : FeedbackEntry)
    (w : List Char) (h : e.status ≠ "correct") :
    checkCorrect (F ++ [e]) w = checkCorrect F w := by
  have hlast : ∀ p, lastCorrectAt (F ++ [e]) p = lastCorrectAt F p := by
    intro p
    exact lastCorrectAt_append_of_none F [e] (by simp [correctEntries, h]) p
  unfold checkCorrect
  simp only [hlast]

theorem checkPresent_append_unrec (F : List FeedbackEntry) (e : FeedbackEntry)
    (w : List Char) (h : e.status ≠ "present") :
    checkPresent (F ++ [e]) w = checkPresent F w := by
  have hpp : presentPairs (F ++ [e]) = presentPairs F := by
    rw [presentPairs_append]
    have : presentPairs [e] = [] := by simp [presentPairs, h]
    rw [this, List.append_nil]
  unfold checkPresent
  rw [hpp]

theorem absentLetters_append_unrec (F : List FeedbackEntry) (e : FeedbackEntry)
    (h1 : e.status ≠ "correct") (h2 : e.status ≠ "present")
    (h3 : e.status ≠ "absent") :
    absentLetters (F ++ [e]) = absentLetters F := by
  have hk : knownLetters (F ++ [e]) = knownLetters F := by
    rw [knownLetters_append]
    have : knownLetters [e] = [] := by simp [knownLetters, h1, h2]
    rw [this, List.append_nil]
  unfold absentLetters
  rw [hk, List.filter_append]
  have : List.filter (fun f =>
      f.status == "absent" && !(knownLetters F).contains f.letter) [e] = [] := by
    simp [h3]
  rw [this, List.append_nil]

theorem checkAbsent_append_unrec (F : List FeedbackEntry) (e : FeedbackEntry)
    (w : List Char) (h1 : e.status ≠ "correct") (h2 : e.status ≠ "present")
    (h3 : e.status ≠ "absent") :
    checkAbsent (F ++ [e]) w = checkAbsent F w := by
  unfold checkAbsent
  rw [absentLetters_append_unrec F e h1 h2 h3]

/-! ### C10 -/

/-- C10: appending a feedback entry whose status is none of "correct",
"present" or "absent" does not change the result of filter_words (as a
set): such an entry contributes to none of the three derived facts. -/
theorem c10_unrecognized_status_ignored (wl : List Row)
    (F : List FeedbackEntry) (e : FeedbackEntry)
    (h1 : e.status ≠ "correct") (h2 : e.status ≠ "present")
    (h3 : e.status ≠ "absent") (w : List Char) :
    w ∈ filter_words wl (F ++ [e]) ↔ w ∈ filter_words wl F := by
  by_cases hF : F = []
  · subst hF
    rw [show ([] : List FeedbackEntry) ++ [e] = [e] from rfl]
    rw [mem_filter_words wl [e] (by simp) w, filter_words_nil]
    have hc : checkCorrect [e] w = true := by
      unfold checkCorrect
      rw [List.all_eq_true]
      intro p hp
      have hnone : lastCorrectAt [e] p = none := by
        unfold lastCorrectAt correctEntries
        simp [h1]
      simp only [hnone]
    have hp : checkPresent [e] w = true := by
      simp [checkPresent, presentPairs, h2]
    have ha : checkAbsent [e] w = true := by
      simp [checkAbsent, absentLetters, h3]
    simp [hc, hp, ha]
  · rw [mem_filter_words wl (F ++ [e]) (by simp) w,
        mem_filter_words wl F hF w,
        checkCorrect_append_unrec F e w h1,
        checkPresent_append_unrec F e w h2,
        checkAbsent_append_unrec F e w h1 h2 h3]

/-- C10 witness: appending the entry (0,'x',"bogus") to the empty feedback
list leaves "apple" a candidate exactly as before. -/
theorem c10_witness :
    ("apple".toList ∈ filter_words corpus1 ([] ++ [⟨0, 'x', "bogus"⟩]) ↔
      "apple".toList ∈ filter_words corpus1 []) :=
  c10_unrecognized_status_ignored corpus1 [] ⟨0, 'x', "bogus"⟩
    (by decide) (by decide) (by decide) "apple".toList

/-! ### C2 -/

/-- C2 (counterexample): adding feedback entries can grow the candidate
set. With corpus ["night"], F1 = [(0,'n',absent)] rejects "night", but
F2 = F1 plus (1,'n',present) makes 'n' a known letter, empties the
absent-letter set, and re-admits "night": filterWords(F2) is not a subset
of filterWords(F1). -/
theorem c2_added_feedback_readmits_word :
    "night".toList ∈ filter_words [⟨"night".toList, 1⟩]
        ([⟨0, 'n', "absent"⟩] ++ [⟨1, 'n', "present"⟩]) ∧
      "night".toList ∉ filter_words [⟨"night".toList, 1⟩] [⟨0, 'n', "absent"⟩] := by
  decide

/-- The absent check is: no absent letter occurs in the word. -/
theorem checkAbsent_eq_true_iff (fb : List FeedbackEntry) (w : List Char) :
    checkAbsent fb w = true ↔ ∀ c ∈ absentLetters fb, c ∉ w := by
  unfold checkAbsent
  simp

/-- An absent letter of F1 that stays unknown in F1 ++ extra is an absent
letter of F1 ++ extra. -/
theorem absentLetters_mono (F1 extra : List FeedbackEntry)
    (h2 : ∀ c ∈ absentLetters F1, c ∉ knownLetters (F1 ++ extra)) :
    ∀ c ∈ absentLetters F1, c ∈ absentLetters (F1 ++ extra) := by
  intro c hc
  have hck := h2 c hc
  simp only [absentLetters, List.mem_map, List.mem_filter] at hc ⊢
  obtain ⟨f, ⟨hfmem, hcond⟩, hlet⟩ := hc
  refine ⟨f, ⟨List.mem_append_left _ hfmem, ?_⟩, hlet⟩
  rw [Bool.and_eq_true] at hcond ⊢
  refine ⟨hcond.1, ?_⟩
  simpa [hlet] using hck

/-- C2 (amended): monotonic narrowing holds for F2 = F1 ++ extra provided
the extra entries neither override a correct position of F1 with a
different letter nor turn an absent letter of F1 into a known letter —
the two mechanisms by which the source weakens a check when feedback
grows. -/
theorem c2_monotone_narrowing (wl : List Row) (F1 extra : List FeedbackEntry)
    (h1 : ∀ p : Fin WORD_LENGTH, lastCorrectAt F1 p = none ∨
      lastCorrectAt (F1 ++ extra) p = lastCorrectAt F1 p)
    (h2 : ∀ c ∈ absentLetters F1, c ∉ knownLetters (F1 ++ extra))
    (w : List Char) (hw : w ∈ filter_words wl (F1 ++ extra)) :
    w ∈ filter_words wl F1 := by
  by_cases hF2 : F1 ++ extra = []
  · have hF1 : F1 = [] := (List.append_eq_nil.1 hF2).1
    rw [hF2] at hw
    rw [hF1]
    exact hw
  · obtain ⟨hwmap, hcc2, hcp2, hca2⟩ := (mem_filter_words wl (F1 ++ extra) hF2 w).1 hw
    by_cases hF1 : F1 = []
    · subst hF1
      rw [filter_words_nil]
      exact hwmap
    · rw [mem_filter_words wl F1 hF1 w]
      refine ⟨hwmap, ?_, ?_, ?_⟩
      · unfold checkCorrect at hcc2 ⊢
        rw [List.all_eq_true] at hcc2 ⊢
        intro p hp
        rcases h1 p with hnone | heq
        · simp only [hnone]
        · have hthis := hcc2 p hp
          rw [heq] at hthis
          exact hthis
      · unfold checkPresent at hcp2 ⊢
        rw [List.all_eq_true] at hcp2 ⊢
        intro pc hpc
        apply hcp2
        rw [presentPairs_append]
        exact List.mem_append_left _ hpc
      · rw [checkAbsent_eq_true_iff] at hca2 ⊢
        intro c hc
        exact hca2 c (absentLetters_mono F1 extra h2 c hc)

/-- C2 witness: with corpus1, F1 = [(1,'n',absent)] and extra =
[(0,'a',correct)], the extra entry preserves both hypotheses, and "apple",
a candidate under F1 ++ extra, is a candidate under F1. -/
theorem c2_monotone_witness :
    "apple".toList ∈ filter_words corpus1 [⟨1, 'n', "absent"⟩] :=
  c2_monotone_narrowing corpus1 [⟨1, 'n', "absent"⟩] [⟨0, 'a', "correct"⟩]
    (by decide) (by decide) "apple".toList (by decide)

/-! ### The word_freq dict and max -/

/-- Unfolding word_freq over one more corpus row at the end. -/
theorem word_freq_concat (wl : List Row) (r : Row) (cands : List (List Char)) :
    word_freq (wl ++ [r]) cands =
      if cands.contains (lowerWord r.word) = true then
        dictInsert (word_freq wl cands) (lowerWord r.word) r.frequency
      else word_freq wl cands := by
  unfold word_freq
  rw [List.foldl_append]
  rfl

/-- Unfolding corpusFreq over one more corpus row at the end. -/
theorem corpusFreq_concat (wl : List Row) (r : Row) (k : List Char) :
    corpusFreq (wl ++ [r]) k =
      if lowerWord r.word = k then some r.frequency else corpusFreq wl k := by
  unfold corpusFreq
  rw [List.filter_append]
  by_cases h : lowerWord r.word = k
  · rw [if_pos h]
    have h1 : List.filter (fun r' => lowerWord r'.word == k) [r] = [r] := by
      simp [h]
    rw [h1, List.getLast?_concat]
    rfl
  · rw [if_neg h]
    have h1 : List.filter (fun r' => lowerWord r'.word == k) [r] = [] := by
      simp [h]
    rw [h1, List.append_nil]

/-- Every pair of `dictInsert d k v` is either the inserted pair or a pair
of `d` whose key differs from `k`. -/
theorem mem_dictInsert (d : List (List Char × ℚ)) (k : List Char) (v : ℚ)
    (p : List Char × ℚ) (hp : p ∈ dictInsert d k v) :
    p = (k, v) ∨ (p ∈ d ∧ p.1 ≠ k) := by
  unfold dictInsert at hp
  by_cases h : d.any (fun q => q.1 == k) = true
  · rw [if_pos h] at hp
    rw [List.mem_map] at hp
    obtain ⟨q, hq, hmap⟩ := hp
    by_cases hqk : q.1 = k
    · left
      have : (if (q.1 == k) = true then ((k, v) : List Char × ℚ) else q) = (k, v) := by
        simp [hqk]
      rw [this] at hmap
      exact hmap.symm
    · right
      have : (if (q.1 == k) = true then ((k, v) : List Char × ℚ) else q) = q := by
        simp [hqk]
      rw [this] at hmap
      exact ⟨hmap ▸ hq, hmap ▸ hqk⟩
  · rw [if_neg h] at hp
    rw [List.mem_append] at hp
    rcases hp with hp | hp
    · right
      refine ⟨hp, ?_⟩
      intro hk
      apply h
      rw [List.any_eq_true]
      exact ⟨p, hp, by simp [hk]⟩
    · left
      simpa using hp

/-- The inserted pair is in the dict. -/
theorem self_mem_dictInsert (d : List (List Char × ℚ)) (k : List Char) (v : ℚ) :
    (k, v) ∈ dictInsert d k v := by
  unfold dictInsert
  by_cases h : d.any (fun q => q.1 == k) = true
  · rw [if_pos h]
    rw [List.any_eq_true] at h
    obtain ⟨q, hq, hqk⟩ := h
    rw [List.mem_map]
    exact ⟨q, hq, by simp [show q.1 = k by simpa using hqk]⟩
  · rw [if_neg h]
    exact List.mem_append_right _ (List.mem_singleton.2 rfl)

/-- Insertion preserves the presence of every key. -/
theorem key_mem_dictInsert (d : List (List Char × ℚ)) (k : List Char) (v : ℚ)
    (k' : List Char) (v' : ℚ) (h : (k', v') ∈ d) :
    ∃ v'', (k', v'') ∈ dictInsert d k v := by
  by_cases hk : k' = k
  · exact ⟨v, hk ▸ self_mem_dictInsert d k v⟩
  · unfold dictInsert
    by_cases ha : d.any (fun q => q.1 == k) = true
    · rw [if_pos ha]
      refine ⟨v', ?_⟩
      rw [List.mem_map]
      exact ⟨(k', v'), h, by simp [hk]⟩
    · rw [if_neg ha]
      exact ⟨v', List.mem_append_left _ h⟩

/-- Soundness of the word_freq dict: every pair is a candidate together
with its corpus frequency score. -/
theorem word_freq_mem_spec (cands : List (List Char)) (wl : List Row) :
    ∀ p ∈ word_freq wl cands, p.1 ∈ cands ∧ corpusFreq wl p.1 = some p.2 := by
  induction wl using List.reverseRecOn with
  | nil =>
    intro p hp
    simp [word_freq] at hp
  | append_singleton wl r ih =>
    intro p hp
    rw [word_freq_concat] at hp
    by_cases hc : cands.contains (lowerWord r.word) = true
    · rw [if_pos hc] at hp
      rcases mem_dictInsert _ _ _ p hp with heq | ⟨hmem, hne⟩
      · subst heq
        refine ⟨by simpa using hc, ?_⟩
        rw [corpusFreq_concat, if_pos rfl]
      · have hspec := ih p hmem
        refine ⟨hspec.1, ?_⟩
        rw [corpusFreq_concat, if_neg (fun hh => hne hh.symm)]
        exact hspec.2
    · rw [if_neg hc] at hp
      have hspec := ih p hp
      refine ⟨hspec.1, ?_⟩
      have hne : lowerWord r.word ≠ p.1 := by
        intro hh
        apply hc
        rw [hh]
        simpa using hspec.1
      rw [corpusFreq_concat, if_neg hne]
      exact hspec.2

/-- Completeness of the word_freq dict: every candidate with a corpus row
is a key. -/
theorem word_freq_key_total (cands : List (List Char)) (wl : List Row) :
    ∀ c ∈ cands, (∃ r ∈ wl, lowerWord r.word = c) →
      ∃ v, (c, v) ∈ word_freq wl cands := by
  induction wl using List.reverseRecOn with
  | nil =>
    rintro c hc ⟨r, hr, -⟩
    exact absurd hr (List.not_mem_nil r)
  | append_singleton wl r ih =>
    rintro c hc ⟨r', hr', heq⟩
    rw [word_freq_concat]
    rcases List.mem_append.1 hr' with h | h
    · obtain ⟨v, hv⟩ := ih c hc ⟨r', h, heq⟩
      by_cases hcont : cands.contains (lowerWord r.word) = true
      · rw [if_pos hcont]
        exact key_mem_dictInsert _ _ _ c v hv
      · rw [if_neg hcont]
        exact ⟨v, hv⟩
    · have hrr : r' = r := by simpa using h
      subst hrr
      have hcont : cands.contains (lowerWord r'.word) = true := by
        rw [heq]
        simpa using hc
      rw [if_pos hcont, heq]
      exact ⟨r'.frequency, self_mem_dictInsert _ _ _⟩

/-- The fold behind Python's max returns an element of the list with a
maximal value. -/
theorem foldl_pickMax_spec (l : List (List Char × ℚ)) (b : List Char × ℚ) :
    l.foldl pickMax b ∈ b :: l ∧ ∀ q ∈ b :: l, q.2 ≤ (l.foldl pickMax b).2 := by
  induction l generalizing b with
  | nil => simp
  | cons q l ih =>
    rw [List.foldl_cons]
    have hres := (ih (pickMax b q)).1
    have hall := (ih (pickMax b q)).2
    have hbp : b.2 ≤ (pickMax b q).2 := by
      unfold pickMax
      by_cases hlt : b.2 < q.2
      · rw [if_pos hlt]
        exact le_of_lt hlt
      · rw [if_neg hlt]
    have hqp : q.2 ≤ (pickMax b q).2 := by
      unfold pickMax
      by_cases hlt : b.2 < q.2
      · rw [if_pos hlt]
      · rw [if_neg hlt]
        exact le_of_not_lt hlt
    have hptop : (pickMax b q).2 ≤ (l.foldl pickMax (pickMax b q)).2 :=
      hall (pickMax b q) (List.mem_cons_self _ _)
    constructor
    · rw [List.mem_cons] at hres
      rcases hres with h | h
      · rw [h]
        unfold pickMax
        by_cases hlt : b.2 < q.2
        · rw [if_pos hlt]
          exact List.mem_cons_of_mem _ (List.mem_cons_self _ _)
        · rw [if_neg hlt]
          exact List.mem_cons_self _ _
      · exact List.mem_cons_of_mem _ (List.mem_cons_of_mem _ h)
    · intro x hx
      rw [List.mem_cons, List.mem_cons] at hx
      rcases hx with rfl | rfl | hx
      · exact le_trans hbp hptop
      · exact le_trans hqp hptop
      · exact hall x (List.mem_cons_of_mem _ hx)

/-- maxByVal returns a key of the list whose value is maximal. -/
theorem maxByVal_spec (l : List (List Char × ℚ)) (k : List Char)
    (h : maxByVal l = some k) :
    ∃ v, (k, v) ∈ l ∧ ∀ q ∈ l, q.2 ≤ v := by
  cases l with
  | nil => cases h
  | cons p rest =>
    unfold maxByVal at h
    injection h with h
    have hspec := foldl_pickMax_spec rest p
    refine ⟨(rest.foldl pickMax p).2, ?_, hspec.2⟩
    rw [← h, Prod.mk.eta]
    exact hspec.1

/-- maxByVal is some on a non-empty list. -/
theorem maxByVal_isSome (l : List (List Char × ℚ)) (h : l ≠ []) :
    ∃ k, maxByVal l = some k := by
  cases l with
  | nil => exact absurd rfl h
  | cons p rest => exact ⟨_, rfl⟩

/-! ### C6 -/

/-- C6: for a non-empty candidate list whose members all have a corpus
row, get_best_guess returns a candidate whose corpus frequency score is
maximal among the candidates; in particular, for candidates
crane/slate/adieu with corpus frequencies 10/50/5, it returns "slate". -/
theorem c6_best_guess_selection :
    (∀ (wl : List Row) (cands : List (List Char)), cands ≠ [] →
      (∀ c ∈ cands, ∃ r ∈ wl, lowerWord r.word = c) →
      get_best_guess wl cands ∈ cands ∧
        ∀ c ∈ cands, ∀ q q' : ℚ, corpusFreq wl c = some q →
          corpusFreq wl (get_best_guess wl cands) = some q' → q ≤ q') ∧
      get_best_guess corpus6 cands6 = "slate".toList := by
  constructor
  · intro wl cands hne hall
    obtain ⟨c0, hc0⟩ : ∃ c, c ∈ cands := by
      cases cands with
      | nil => exact absurd rfl hne
      | cons a l => exact ⟨a, List.mem_cons_self _ _⟩
    obtain ⟨v0, hv0⟩ := word_freq_key_total cands wl c0 hc0 (hall c0 hc0)
    have hwfne : word_freq wl cands ≠ [] := List.ne_nil_of_mem hv0
    obtain ⟨k, hk⟩ := maxByVal_isSome _ hwfne
    have hres : get_best_guess wl cands = k := by
      unfold get_best_guess
      rw [if_neg (by simpa using hne), hk]
    obtain ⟨vmax, hkmem, hmax⟩ := maxByVal_spec _ k hk
    have hkspec := word_freq_mem_spec cands wl (k, vmax) hkmem
    rw [hres]
    refine ⟨hkspec.1, ?_⟩
    intro c hc q q' hq hq'
    obtain ⟨vc, hvc⟩ := word_freq_key_total cands wl c hc (hall c hc)
    have hcspec := word_freq_mem_spec cands wl (c, vc) hvc
    have hqvc : q = vc := by
      have := hq.symm.trans hcspec.2
      injection this
    have hq'v : q' = vmax := by
      have := hq'.symm.trans hkspec.2
      injection this
    rw [hqvc, hq'v]
    exact hmax (c, vc) hvc
  · decide

/-- C6 witness: the general part of the theorem at the crane/slate/adieu
corpus: the returned guess is one of the candidates. -/
theorem c6_witness : get_best_guess corpus6 cands6 ∈ cands6 :=
  (c6_best_guess_selection.1 corpus6 cands6 (by decide) (by decide)).1
